import Mathlib

/-!
# Verification of the fsearch-rs search-engine specification

Shallow embedding of the visible sources of the repository
(`src/rust/fsearch-core/c_parity/c_matcher.c`,
`src/rust/fsearch-core/include/fsearch_ffi.h`,
`src/rust/qt-client/main.cpp`, the Qt test harnesses) and, for the engine
core itself — which is absent from the visible source tree (only its FFI
contract and test harnesses are present) — models taken from the
specification's own words, each marked `Modelled from the spec:` in its
doc comment.
-/

set_option maxRecDepth 4000

/-! ## Part 1 — the reference parity matcher (`c_parity/c_matcher.c`)

The tool's observable behaviour is its stdout (a sequence of printed JSON
arrays of `[start,end]` pairs; diagnostics go to stderr and are not
modelled) and its process exit status.  External effects — the PCRE2
library and the filesystem — enter as an environment of oracles.
`pcre2_compile` on a NULL pattern returns NULL with `PCRE2_ERROR_NULL`
(so a missing pattern takes the compile-failure path), whereas
`strlen(NULL)` on the match call is undefined behaviour; a run that
reaches it is modelled as `none` (abnormal termination). -/

/-- Result of parsing `argv[1..]` exactly as the loop in `c_matcher.c`
`main` does (including the `argc == 3` fast path handled separately in
`cMatcherParse`). -/
structure ParsedArgs where
  pat : Option String
  text : Option String
  textFile : Option String
  useJit : Bool
deriving DecidableEq, Repr

/-- The argument loop of `c_matcher.c` (`for (int i = 1; i < argc; i++)`):
a flag expecting a value consumes it only when `i+1 < argc`; a flag at the
very end of the vector falls through to the positional branches, exactly
as the `&&` short-circuit in the C source makes it do. -/
def parseArgsLoop (acc : ParsedArgs) : List String → ParsedArgs
  | [] => acc
  | [a] =>
    if a = "--jit" then { acc with useJit := true }
    else if acc.pat = none then { acc with pat := some a }
    else if acc.text = none then { acc with text := some a }
    else acc
  | a :: b :: rest =>
    if a = "--pattern" then parseArgsLoop { acc with pat := some b } rest
    else if a = "--text" then parseArgsLoop { acc with text := some b } rest
    else if a = "--text-file" then parseArgsLoop { acc with textFile := some b } rest
    else if a = "--jit" then parseArgsLoop { acc with useJit := true } (b :: rest)
    else if acc.pat = none then parseArgsLoop { acc with pat := some a } (b :: rest)
    else if acc.text = none then parseArgsLoop { acc with text := some a } (b :: rest)
    else parseArgsLoop acc (b :: rest)

/-- Argument parsing of `c_matcher.c` `main`: with exactly two user
arguments (`argc == 3`) they are taken positionally as pattern and text;
otherwise the flag loop runs. -/
def cMatcherParse (args : List String) : ParsedArgs :=
  if args.length = 2 then
    { pat := args[0]?, text := args[1]?, textFile := none, useJit := false }
  else
    parseArgsLoop ⟨none, none, none, false⟩ args

/-- Environment of the parity matcher: the PCRE2 compile and match oracles
and the filesystem.  `readFile f = none` covers every failure of the
`fopen`/`fseek`/`malloc`/`fread` block (each such failure prints `[]` and
exits 0).  `matchGroups p t = none` is `pcre2_match` returning `rc < 0`
(no match or error); `some gs` is `rc ≥ 0` with ovector pairs `gs`. -/
structure CMatcherEnv where
  compileOk : String → Bool
  matchGroups : String → String → Option (List (Nat × Nat))
  readFile : String → Option String

/-- One run of `c_matcher.c` `main` on `argv[1..] = args`.
`some (out, code)` is normal termination with `out` the list of JSON
arrays printed to stdout and `code` the exit status; `none` is the
undefined-behaviour path `strlen(NULL)` reached when a pattern that
compiles is supplied while `text` is still NULL at the match call. -/
def cMatcherRun (env : CMatcherEnv) (args : List String) :
    Option (List (List (Nat × Nat)) × Nat) :=
  let pa := cMatcherParse args
  if pa.pat = none ∧ pa.text = none then
    some ([[]], 0)
  else
    -- the `--text-file` block: runs only when text is NULL and a file was given
    let textRes : Option (Option String) :=
      match pa.text with
      | some t => some (some t)
      | none =>
        match pa.textFile with
        | some f =>
          match env.readFile f with
          | some contents => some (some contents)
          | none => none
        | none => some none
    match textRes with
    | none => some ([[]], 0)          -- file read failed: prints [] and exits 0
    | some textOpt =>
      match pa.pat with
      | none => some ([[]], 0)        -- pcre2_compile(NULL) fails: prints [] and exits 0
      | some p =>
        if env.compileOk p then
          match textOpt with
          | none => none              -- strlen(NULL): undefined behaviour
          | some t =>
            match env.matchGroups p t with
            | none => some ([[]], 0)  -- rc < 0: prints [] and exits 0
            | some gs => some ([gs], 0)
        else
          some ([[]], 0)              -- compile failure: prints [] and exits 0

/-- The precise condition under which `c_matcher.c` reaches
`strlen(NULL)`: a pattern was resolved and compiles, no text was resolved,
and no text file was named (a named but unreadable file exits early with
`[]`, a readable one fills `text`). -/
def cMatcherCrashCond (env : CMatcherEnv) (args : List String) : Prop :=
  (∃ p, (cMatcherParse args).pat = some p ∧ env.compileOk p = true) ∧
    (cMatcherParse args).text = none ∧ (cMatcherParse args).textFile = none

instance (env : CMatcherEnv) (args : List String) :
    Decidable (cMatcherCrashCond env args) := by
  unfold cMatcherCrashCond
  exact inferInstance

/-! ## Part 2 — text, matcher and highlighter

The engine's Matcher & Highlighter is not in the visible source (only the
FFI header documents its output format), so it is modelled from the
specification: text is a sequence of grapheme clusters, each a nonempty
run of UTF-16 code units, and all highlight offsets are sums of whole
cluster lengths (spec §3 "Highlight Range", header comment lines 6–15). -/

/-- A field name, `FieldName ∈ {Name, Path}` (spec §3). -/
inductive FieldName where
  | name
  | path
deriving DecidableEq, Repr

/-- One grapheme cluster: the UTF-16 code units composing it.  Well-formed
text has only nonempty clusters. -/
structure Grapheme where
  units : List Nat
deriving DecidableEq, Repr

/-- A text field as a sequence of grapheme clusters. -/
abbrev GText := List Grapheme

/-- Every grapheme cluster of the text occupies at least one UTF-16 code
unit. -/
def wellFormedText (s : GText) : Prop := ∀ g ∈ s, g.units ≠ []

/-- UTF-16 code-unit offset of the boundary before cluster `i` — the sum
of the lengths of the first `i` clusters. -/
def utf16Off : GText → Nat → Nat
  | _, 0 => 0
  | [], _ + 1 => 0
  | g :: gs, i + 1 => g.units.length + utf16Off gs i

/-- Total length of the text in UTF-16 code units. -/
def utf16Len (s : GText) : Nat := utf16Off s s.length

/-- A half-open range whose two endpoints are grapheme-cluster boundaries
of `s`, in UTF-16 code-unit offsets, spanning at least one cluster. -/
def AlignedIn (s : GText) (r : Nat × Nat) : Prop :=
  ∃ a b, a < b ∧ b ≤ s.length ∧ r.1 = utf16Off s a ∧ r.2 = utf16Off s b

/-- A compiled query term: a literal cluster sequence, or a compiled regex
given by its match behaviour — at cluster position `i` of the text it
either matches up to (exclusive) cluster `e`, or does not match there. -/
inductive CTerm where
  | lit (t : GText)
  | rx (matchAt : GText → Nat → Option Nat)

/-- Literal cluster-wise prefix test (substring search anchor step). -/
def litPrefix : GText → GText → Bool
  | [], _ => true
  | _ :: _, [] => false
  | a :: as, b :: bs => if a = b then litPrefix as bs else false

/-- Whether term `t` matches in `cs` at cluster position `i`; on success
the end cluster position. -/
def termMatchAt (cs : GText) : CTerm → Nat → Option Nat
  | .lit t, i => if litPrefix t (cs.drop i) then some (i + t.length) else none
  | .rx m, i => m cs i

/-- First (leftmost) position at which `f` matches, scanning `fuel`
positions starting at `i`. -/
def firstMatchFrom (f : Nat → Option Nat) : Nat → Nat → Option (Nat × Nat)
  | _, 0 => none
  | i, fuel + 1 =>
    match f i with
    | some en => some (i, en)
    | none => firstMatchFrom f (i + 1) fuel

/-- Modelled from the spec (§4.3; the Matcher is absent from the visible
source): evaluate one term on one field's text, taking the first leftmost
match only — never a global all-occurrences scan. -/
def evalTermOnText (cs : GText) (t : CTerm) : Option (Nat × Nat) :=
  firstMatchFrom (termMatchAt cs t) 0 (cs.length + 1)

/-- The highlight ranges one regex term contributes on one field: the
single leftmost match when there is one, nothing otherwise (spec §4.3). -/
def rxTermRanges (m : GText → Nat → Option Nat) (cs : GText) : List (Nat × Nat) :=
  match evalTermOnText cs (CTerm.rx m) with
  | some r => [r]
  | none => []

/-- A term together with its optional field scope (spec §3
"Structured Query"). -/
structure ScopedTerm where
  field : Option FieldName
  term : CTerm

/-- The two textual fields of an entry the matcher sees. -/
structure EntryText where
  nameText : GText
  pathText : GText

def fieldText (e : EntryText) : FieldName → GText
  | .name => e.nameText
  | .path => e.pathText

/-- Modelled from the spec (§4.3): evaluate a scoped term against an
entry — the scoped field if set, otherwise try Name then Path — yielding
the field actually matched and the match's UTF-16 range. -/
def evalTerm (e : EntryText) (st : ScopedTerm) : Option (FieldName × Nat × Nat) :=
  match st.field with
  | some f =>
    (evalTermOnText (fieldText e f) st.term).map
      (fun r => (f, utf16Off (fieldText e f) r.1, utf16Off (fieldText e f) r.2))
  | none =>
    match evalTermOnText e.nameText st.term with
    | some r => some (.name, utf16Off e.nameText r.1, utf16Off e.nameText r.2)
    | none =>
      (evalTermOnText e.pathText st.term).map
        (fun r => (.path, utf16Off e.pathText r.1, utf16Off e.pathText r.2))

/-- Modelled from the spec (§4.3 "Conjunction"): an entry matches only if
every term matches; on success the highlight set collects every term's
range. -/
def matchEntry (e : EntryText) : List ScopedTerm →
    Option (List (FieldName × Nat × Nat))
  | [] => some []
  | t :: ts =>
    match evalTerm e t, matchEntry e ts with
    | some h, some hs => some (h :: hs)
    | _, _ => none

/-- The ranges of a highlight set that apply to field `f`. -/
def fieldRanges (hs : List (FieldName × Nat × Nat)) (f : FieldName) :
    List (Nat × Nat) :=
  hs.filterMap (fun h => if h.1 = f then some h.2 else none)

/-- The union of the individual terms' ranges for field `f` (spec §4.3:
"the reported highlight set is the union of all terms' ranges, per
field"). -/
def termFieldRanges (e : EntryText) (q : List ScopedTerm) (f : FieldName) :
    List (Nat × Nat) :=
  q.filterMap (fun t =>
    match evalTerm e t with
    | some h => if h.1 = f then some h.2 else none
    | none => none)

/-- A query term is well formed when a literal is nonempty and a compiled
regex only reports matches spanning at least one cluster and ending inside
the text. -/
def wellFormedCTerm : CTerm → Prop
  | .lit t => t ≠ []
  | .rx m => ∀ cs i en, m cs i = some en → i < en ∧ en ≤ cs.length

/-! ## Part 3 — range normalization

Generic sort-and-merge of `[start, end)` ranges.  The same algorithm
appears in the source in `applyRangesToHtml` (`qt-client/main.cpp`
lines 40–45: sort by start, then either append a range or extend the last
merged range's end to the max) and is prescribed by spec §4.3 for the
engine's per-field delivery normalization. -/

/-- The merge scan: `cur` is the range being accumulated; a range starting
after `cur` ends (strictly) is appended, anything else (overlap or touch,
`start ≤ cur.end`) extends `cur`'s end to the max — exactly the loop body
`if (merged.isEmpty() || r.first > merged.last().second) merged.append(r);
else merged.last().second = max(...)`. -/
def mergeScan {α : Type} [LinearOrder α] (cur : α × α) :
    List (α × α) → List (α × α)
  | [] => [cur]
  | r :: rs =>
    if cur.2 < r.1 then cur :: mergeScan r rs
    else mergeScan (cur.1, max cur.2 r.2) rs

def mergeRanges {α : Type} [LinearOrder α] : List (α × α) → List (α × α)
  | [] => []
  | r :: rs => mergeScan r rs

/-- Sort by start offset then merge overlapping-or-touching ranges. -/
def normalizeRanges {α : Type} [LinearOrder α] (l : List (α × α)) :
    List (α × α) :=
  mergeRanges (List.insertionSort (fun a b => a.1 ≤ b.1) l)

/-- Modelled from the spec (§4.3 "Range normalization before delivery"):
the per-field delivered range set — the field's ranges, sorted and merged
within that field only. -/
def deliveredRanges (hs : List (FieldName × Nat × Nat)) (f : FieldName) :
    List (Nat × Nat) :=
  normalizeRanges (fieldRanges hs f)

/-- A point lies inside some range of the list. -/
def coversPoint {α : Type} [LinearOrder α] (l : List (α × α)) (p : α) : Prop :=
  ∃ r ∈ l, r.1 ≤ p ∧ p < r.2

/-! ## Part 4 — the Qt client's range handling (`qt-client/main.cpp`) -/

/-- One element of the JSON `ranges` array handed to `applyRangesToHtml`:
either not an array (skipped by `if (!rv.isArray()) continue`) or an array
of integers (a non-integer element yields `-1` via `toInt(-1)`, which the
sign filter below then drops). -/
inductive JItem where
  | notArr
  | arr (vals : List Int)
deriving DecidableEq, Repr

/-- The collection loop of `applyRangesToHtml` (lines 29–37): keep the
first two integers of each array of size ≥ 2, dropping pairs with
`s < 0 || e <= s`. -/
def collectRanges (xs : List JItem) : List (Int × Int) :=
  xs.filterMap (fun it =>
    match it with
    | .notArr => none
    | .arr vals =>
      match vals with
      | s :: en :: _ => if s < 0 ∨ en ≤ s then none else some (s, en)
      | _ => none)

/-- The sort-and-merge of `applyRangesToHtml` (lines 40–45) applied to the
collected ranges of one field. -/
def clientNormalize (xs : List JItem) : List (Int × Int) :=
  normalizeRanges (collectRanges xs)

/-- `EventReceiver::event` (lines 104–114) runs `applyRangesToHtml`
separately on the `name` ranges and on the `path` ranges of a delivered
record: the two fields are normalized independently, never merged
together. -/
def clientRecordRanges (nameArr pathArr : List JItem) :
    List (Int × Int) × List (Int × Int) :=
  (clientNormalize nameArr, clientNormalize pathArr)

/-! ## Part 5 — session manager

The Session Manager is absent from the visible source (only the FFI
declarations `fsearch_start_search_with_cb_c`, `fsearch_cancel_search_c`,
`fsearch_shutdown` and their test harnesses are), so its state machine and
worker loop are modelled from spec §4.4/§5. -/

/-- Session states (spec §4.4). -/
inductive SessionState where
  | Pending
  | Running
  | Cancelled
  | Completed
deriving DecidableEq, Repr

/-- Modelled from the spec (§4.4; the session worker loop is absent from
the visible source): scan the entries in id order with `d` matches already
delivered; at `delivered_count = max_results` the session completes and
scanning stops; exhausting the store also completes. -/
def scanFrom {E : Type} (m : E → Bool) (maxResults : Nat) :
    List E → Nat → List E × SessionState
  | [], _ => ([], .Completed)
  | e :: es, d =>
    if d = maxResults then ([], .Completed)
    else if m e then
      let r := scanFrom m maxResults es (d + 1)
      (e :: r.1, r.2)
    else scanFrom m maxResults es d

/-- Modelled from the spec (§4.4 `start`): a whole session run: the
delivered entries in scan order and the final state. -/
def runSession {E : Type} (m : E → Bool) (maxResults : Nat)
    (entries : List E) : List E × SessionState :=
  scanFrom m maxResults entries 0

/-- A raw query term: optional field scope and raw term text. -/
structure RawTerm where
  field : Option FieldName
  raw : String

/-- A raw structured query as far as session compilation needs it:
regex mode plus the scoped term list. -/
structure RawQuery where
  regexMode : Bool
  terms : List RawTerm

/-- Compile each regex term of the list in order; `none` as soon as any
term's pattern fails to compile. -/
def compileTerms (compile : String → Option (GText → Nat → Option Nat)) :
    List RawTerm → Option (List ScopedTerm)
  | [] => some []
  | t :: ts =>
    match compile t.raw, compileTerms compile ts with
    | some m, some rest => some (⟨t.field, .rx m⟩ :: rest)
    | _, _ => none

/-- Modelled from the spec (§4.3: "compile the term text as a pattern once
per session … a compile failure for any term causes that session to yield
zero matches for all entries"): compile every term once; `none` as soon as
any regex term fails to compile; literal mode never fails. -/
def compileQuery (compile : String → Option (GText → Nat → Option Nat))
    (toLit : String → GText) (q : RawQuery) : Option (List ScopedTerm) :=
  if q.regexMode then
    compileTerms compile q.terms
  else
    some (q.terms.map (fun t => ⟨t.field, .lit (toLit t.raw)⟩))

/-- Modelled from the spec: the per-entry match predicate of a session — a
session whose compilation failed matches no entry at all. -/
def sessionMatch (cq : Option (List ScopedTerm)) (e : EntryText) : Bool :=
  match cq with
  | none => false
  | some ts => (matchEntry e ts).isSome

/-- Modelled from the spec: a full query session over a fixed entry store:
compile once, then scan delivering matches up to `maxResults`. -/
def runQuerySession (compile : String → Option (GText → Nat → Option Nat))
    (toLit : String → GText) (q : RawQuery) (entries : List EntryText)
    (maxResults : Nat) : List EntryText × SessionState :=
  runSession (sessionMatch (compileQuery compile toLit q)) maxResults entries

/-! ### Cancellation as a synchronizing barrier (spec §4.4 `cancel`)

Modelled from the spec: `cancel` "marks the session `Cancelled`" and is "a
synchronizing operation, not merely a flag set": its return is a separate
observable event that the engine may only let happen once the session is
terminal and no delivery is in flight.  The interleaving of one session's
worker and its caller is a word over the events below, valid when the
guarded step function accepts every event in turn. -/

/-- Observable events of one session handle. -/
inductive SEv where
  | start
  | deliverBegin
  | deliverEnd
  | complete
  | cancelCall
  | cancelRet
deriving DecidableEq, Repr

/-- Lifecycle state of one session handle: the session state plus whether
a delivery callback is currently executing in the caller. -/
structure HState where
  st : SessionState
  inDelivery : Bool
deriving DecidableEq, Repr

/-- Modelled from the spec (§4.4, §5; the Session Manager is absent from
the visible source): the guarded transition function.  A delivery may only
begin while the session is `Running`; `cancelCall` marks a live session
`Cancelled` and is a no-op on a terminal one; `cancelRet` — cancel
returning to the caller — is only enabled once the session is terminal and
no delivery is in flight (the join/barrier of §9). -/
def sessStep (s : HState) : SEv → Option HState
  | .start => if s.st = .Pending then some { s with st := .Running } else none
  | .deliverBegin =>
    if s.st = .Running ∧ s.inDelivery = false then
      some { s with inDelivery := true }
    else none
  | .deliverEnd =>
    if s.inDelivery = true then some { s with inDelivery := false } else none
  | .complete =>
    if s.st = .Running ∧ s.inDelivery = false then
      some { s with st := .Completed }
    else none
  | .cancelCall =>
    if s.st = .Cancelled ∨ s.st = .Completed then some s
    else some { s with st := .Cancelled }
  | .cancelRet =>
    if (s.st = .Cancelled ∨ s.st = .Completed) ∧ s.inDelivery = false then
      some s
    else none

/-- Run a sequence of events through the guarded step function; `none`
when some event was not enabled (the interleaving cannot happen). -/
def runEvents (s : HState) (evs : List SEv) : Option HState :=
  evs.foldlM sessStep s

/-- The initial state of a freshly allocated handle (spec §4.4:
`Pending` is instantaneous, work not yet started). -/
def initialHState : HState := ⟨.Pending, false⟩

/-! ## Part 6 — index build (spec §4.1/§6) -/

/-- Modelled from the spec (§4.1; the Entry Store builder behind
`fsearch_index_build_from_paths_c` is absent from the visible source):
enumeration is delegated to the crawler (`entriesOf`); every accessible
path is indexed; the null sentinel is returned only when no supplied path
is accessible, and then no partial index is produced. -/
def buildIndexModel {E : Type} (readable : String → Bool)
    (entriesOf : String → List E) (paths : List String) : Option (List E) :=
  let acc := paths.filter readable
  if acc.isEmpty then none else some ((acc.map entriesOf).flatten)

/-! ## Part 7 — the Qt client result callback (`qt-client/main.cpp`
lines 143–173) -/

/-- The fields of `SearchContext` that `result_cb` reads or writes:
`handle` (0 for index listings), whether the `list` pointer is non-null,
the atomic `count`, and `maxResults` (a C `int`, hence `Int`). -/
structure CbContext where
  handle : Nat
  hasList : Bool
  count : Int
  maxResults : Int
deriving DecidableEq, Repr

/-- Externally visible actions `result_cb` can take, in program order. -/
inductive CbEffect where
  | postResult (name path highlights : String)
  | cancelSearch (handle : Nat)
  | postLimitNote
  | freeContext
deriving DecidableEq, Repr

/-- Shallow embedding of `result_cb` (`qt-client/main.cpp` 143–173): the
shutting-down flag is checked before anything else; then the null checks
on the context and its list; then the count increment and limit check;
the result event is posted, and on reaching the limit with a real handle
the search is cancelled, a note event posted, and the context freed
(returned context `none`). -/
def result_cb (shuttingDown : Bool) (ctx : Option CbContext)
    (name path highlights : String) : List CbEffect × Option CbContext :=
  if shuttingDown then ([], ctx)
  else
    match ctx with
    | none => ([], none)
    | some c =>
      if c.hasList = false then ([], some c)
      else
        let prev := c.count
        let c2 : CbContext := { c with count := c.count + 1 }
        if (0 < c.maxResults ∧ c.maxResults ≤ prev + 1) ∧ c.handle ≠ 0 then
          ([.postResult name path highlights, .cancelSearch c.handle,
              .postLimitNote, .freeContext], none)
        else
          ([.postResult name path highlights], some c2)

/-! ## Part 8 — concrete values used by witnesses and counterexamples -/

/-- Oracle environment in which every pattern compiles and nothing
matches. -/
def envAllCompile : CMatcherEnv :=
  ⟨fun _ => true, fun _ _ => none, fun _ => none⟩

/-- Oracle environment in which no pattern compiles. -/
def envNoCompile : CMatcherEnv :=
  ⟨fun _ => false, fun _ _ => none, fun _ => none⟩

/-- A one-code-unit grapheme cluster. -/
def g1 : Grapheme := ⟨[72]⟩

/-- A two-code-unit grapheme cluster (e.g. a surrogate pair). -/
def g2 : Grapheme := ⟨[55357, 56832]⟩

/-- A sample entry: name `[g1, g2, g1]`, path `[g2]`. -/
def sampleEntry : EntryText := ⟨[g1, g2, g1], [g2]⟩

/-- A regex-term behaviour matching exactly one cluster at position 1. -/
def sampleRx : GText → Nat → Option Nat :=
  fun cs i => if i = 1 ∧ 2 ≤ cs.length then some 2 else none

/-- A sample accessibility map: only path `"a"` is readable. -/
def readableSample : String → Bool := fun s => s = "a"

/-- A sample crawler: every readable root contributes entries `[1, 2]`. -/
def entriesSample : String → List Nat := fun _ => [1, 2]

/-- A session state is terminal (spec §4.4: `Cancelled` and `Completed`
are terminal). -/
def terminalH (s : HState) : Prop :=
  s.st = SessionState.Cancelled ∨ s.st = SessionState.Completed

instance instFstLeTotal {α : Type} [LinearOrder α] :
    IsTotal (α × α) (fun a b => a.1 ≤ b.1) :=
  ⟨fun a b => le_total a.1 b.1⟩

instance instFstLeTrans {α : Type} [LinearOrder α] :
    IsTrans (α × α) (fun a b => a.1 ≤ b.1) :=
  ⟨fun _ _ _ h1 h2 => le_trans h1 h2⟩

/-! ## Helper lemmas -/

theorem utf16Off_nil (i : Nat) : utf16Off [] i = 0 := by
  cases i <;> rfl

theorem utf16Off_zero (s : GText) : utf16Off s 0 = 0 := by
  cases s <;> rfl

theorem utf16Off_mono (s : GText) : ∀ i j, i ≤ j → utf16Off s i ≤ utf16Off s j := by
  induction s with
  | nil => intro i j _; simp [utf16Off_nil]
  | cons g gs ih =>
    intro i j hij
    cases i with
    | zero => simp [utf16Off_zero]
    | succ i =>
      cases j with
      | zero => omega
      | succ j =>
        simp only [utf16Off]
        exact Nat.add_le_add_left (ih i j (Nat.succ_le_succ_iff.mp hij)) _

theorem utf16Off_stable (s : GText) : ∀ i, s.length ≤ i → utf16Off s i = utf16Len s := by
  induction s with
  | nil => intro i _; simp [utf16Len, utf16Off_nil]
  | cons g gs ih =>
    intro i hi
    cases i with
    | zero => simp at hi
    | succ i =>
      simp only [List.length_cons] at hi
      simp only [utf16Len, utf16Off, List.length_cons]
      rw [ih i (by omega)]
      rfl

theorem utf16Off_le_len (s : GText) (i : Nat) : utf16Off s i ≤ utf16Len s := by
  rcases Nat.le_total i s.length with h | h
  · exact utf16Off_mono s i s.length h
  · rw [utf16Off_stable s i h]

theorem utf16Off_strictMono (s : GText) :
    ∀ i j, wellFormedText s → i < j → j ≤ s.length → utf16Off s i < utf16Off s j := by
  induction s with
  | nil => intro i j _ hij hj; simp at hj; omega
  | cons g gs ih =>
    intro i j hwf hij hj
    have hg : g.units ≠ [] := hwf g (by simp)
    have hg1 : 0 < g.units.length := List.length_pos.mpr hg
    cases j with
    | zero => omega
    | succ j =>
      cases i with
      | zero =>
        simp only [utf16Off_zero, utf16Off]
        exact Nat.lt_of_lt_of_le hg1 (Nat.le_add_right _ _)
      | succ i =>
        simp only [utf16Off]
        have hwf2 : wellFormedText gs := fun x hx => hwf x (by simp [hx])
        have := ih i j hwf2 (by omega) (by simpa using hj)
        omega

theorem firstMatchFrom_some (f : Nat → Option Nat) :
    ∀ fuel i s en, firstMatchFrom f i fuel = some (s, en) →
      f s = some en ∧ i ≤ s ∧ ∀ j, i ≤ j → j < s → f j = none := by
  intro fuel
  induction fuel with
  | zero => intro i s en h; simp [firstMatchFrom] at h
  | succ fuel ih =>
    intro i s en h
    simp only [firstMatchFrom] at h
    cases hfi : f i with
    | some v =>
      rw [hfi] at h
      obtain ⟨rfl, rfl⟩ : i = s ∧ v = en := by
        constructor <;> [exact (Prod.mk.injEq _ _ _ _ ▸ Option.some.inj h).1;
          exact (Prod.mk.injEq _ _ _ _ ▸ Option.some.inj h).2]
      exact ⟨hfi, Nat.le_refl _, fun j h1 h2 => by omega⟩
    | none =>
      rw [hfi] at h
      obtain ⟨h1, h2, h3⟩ := ih (i + 1) s en h
      refine ⟨h1, by omega, fun j hj1 hj2 => ?_⟩
      rcases Nat.eq_or_lt_of_le hj1 with rfl | hlt
      · exact hfi
      · exact h3 j hlt hj2

theorem firstMatchFrom_none (f : Nat → Option Nat) :
    ∀ fuel i, firstMatchFrom f i fuel = none →
      ∀ j, i ≤ j → j < i + fuel → f j = none := by
  intro fuel
  induction fuel with
  | zero => intro i _ j _ _; omega
  | succ fuel ih =>
    intro i h j hj1 hj2
    simp only [firstMatchFrom] at h
    cases hfi : f i with
    | some v => rw [hfi] at h; simp at h
    | none =>
      rw [hfi] at h
      rcases Nat.eq_or_lt_of_le hj1 with rfl | hlt
      · exact hfi
      · exact ih (i + 1) h j hlt (by omega)

theorem litPrefix_length {t l : GText} (h : litPrefix t l = true) :
    t.length ≤ l.length := by
  induction t generalizing l with
  | nil => simp
  | cons a as ih =>
    cases l with
    | nil => simp [litPrefix] at h
    | cons b bs =>
      simp only [litPrefix] at h
      split at h
      · simpa using Nat.succ_le_succ (ih h)
      · simp at h

theorem termMatchAt_sound {cs : GText} {t : CTerm} {i en : Nat}
    (hwf : wellFormedCTerm t) (h : termMatchAt cs t i = some en) :
    i < en ∧ en ≤ cs.length := by
  cases t with
  | lit tt =>
    simp only [termMatchAt] at h
    split at h
    · rename_i hpre
      have hlen := litPrefix_length hpre
      simp only [List.length_drop] at hlen
      have ht1 : 0 < tt.length := List.length_pos.mpr hwf
      have : en = i + tt.length := (Option.some.inj h).symm
      omega
    · simp at h
  | rx m => exact hwf cs i en h

theorem evalTermOnText_sound {cs : GText} {t : CTerm} {a b : Nat}
    (h : evalTermOnText cs t = some (a, b)) :
    termMatchAt cs t a = some b ∧ ∀ j, j < a → termMatchAt cs t j = none := by
  obtain ⟨h1, _, h3⟩ := firstMatchFrom_some (termMatchAt cs t) (cs.length + 1) 0 a b h
  exact ⟨h1, fun j hj => h3 j (Nat.zero_le _) hj⟩

theorem evalTermOnText_bounds {cs : GText} {t : CTerm} {a b : Nat}
    (hwf : wellFormedCTerm t) (h : evalTermOnText cs t = some (a, b)) :
    a < b ∧ b ≤ cs.length :=
  termMatchAt_sound hwf (evalTermOnText_sound h).1

theorem evalTermOnText_none {cs : GText} {t : CTerm}
    (h : evalTermOnText cs t = none) :
    ∀ j, j ≤ cs.length → termMatchAt cs t j = none := by
  intro j hj
  exact firstMatchFrom_none (termMatchAt cs t) (cs.length + 1) 0 h j
    (Nat.zero_le _) (by omega)

theorem evalTerm_aligned {e : EntryText} {st : ScopedTerm} {f : FieldName}
    {x y : Nat} (hwf : wellFormedCTerm st.term)
    (h : evalTerm e st = some (f, x, y)) :
    AlignedIn (fieldText e f) (x, y) := by
  rcases hsf : st.field with _ | f0 <;> simp only [evalTerm, hsf] at h
  · cases hn : evalTermOnText e.nameText st.term with
    | some r =>
      rw [hn] at h
      simp only [Option.some.injEq, Prod.mk.injEq] at h
      obtain ⟨rfl, rfl, rfl⟩ := h
      obtain ⟨hab, hbl⟩ := evalTermOnText_bounds hwf hn
      exact ⟨r.1, r.2, hab, hbl, rfl, rfl⟩
    | none =>
      rw [hn] at h
      cases hp : evalTermOnText e.pathText st.term with
      | some r =>
        rw [hp] at h
        simp only [Option.map_some, Option.some.injEq, Prod.mk.injEq] at h
        obtain ⟨rfl, rfl, rfl⟩ := h
        obtain ⟨hab, hbl⟩ := evalTermOnText_bounds hwf hp
        exact ⟨r.1, r.2, hab, hbl, rfl, rfl⟩
      | none => rw [hp] at h; simp at h
  · cases ht : evalTermOnText (fieldText e f0) st.term with
    | some r =>
      rw [ht] at h
      simp only [Option.map_some', Option.some.injEq, Prod.mk.injEq] at h
      obtain ⟨rfl, rfl, rfl⟩ := h
      obtain ⟨hab, hbl⟩ := evalTermOnText_bounds hwf ht
      exact ⟨r.1, r.2, hab, hbl, rfl, rfl⟩
    | none => rw [ht] at h; simp at h

theorem matchEntry_isSome (e : EntryText) :
    ∀ q : List ScopedTerm,
      (matchEntry e q).isSome ↔ ∀ t ∈ q, (evalTerm e t).isSome := by
  intro q
  induction q with
  | nil => simp [matchEntry]
  | cons t ts ih =>
    simp only [matchEntry]
    cases ht : evalTerm e t <;> cases hts : matchEntry e ts <;>
      simp_all [ht, hts]

theorem matchEntry_mem {e : EntryText} :
    ∀ {q : List ScopedTerm} {hs}, matchEntry e q = some hs →
      ∀ h ∈ hs, ∃ t ∈ q, evalTerm e t = some h := by
  intro q
  induction q with
  | nil => intro hs hq h hh; simp [matchEntry] at hq; subst hq; simp at hh
  | cons t ts ih =>
    intro hs hq h hh
    simp only [matchEntry] at hq
    cases ht : evalTerm e t <;> rw [ht] at hq
    · simp at hq
    · cases hts : matchEntry e ts <;> rw [hts] at hq
      · simp at hq
      · rename_i v vs
        obtain rfl : v :: vs = hs := Option.some.inj hq
        rcases List.mem_cons.mp hh with rfl | hh2
        · exact ⟨t, by simp, ht⟩
        · obtain ⟨t2, ht2, he2⟩ := ih hts h hh2
          exact ⟨t2, by simp [ht2], he2⟩

theorem matchEntry_filterMap {β : Type} (e : EntryText)
    (p : FieldName × Nat × Nat → Option β) :
    ∀ {q : List ScopedTerm} {hs}, matchEntry e q = some hs →
      hs.filterMap p = q.filterMap (fun t =>
        match evalTerm e t with
        | some h => p h
        | none => none) := by
  intro q
  induction q with
  | nil => intro hs hq; simp [matchEntry] at hq; subst hq; simp
  | cons t ts ih =>
    intro hs hq
    simp only [matchEntry] at hq
    cases ht : evalTerm e t <;> rw [ht] at hq
    · simp at hq
    · cases hts : matchEntry e ts <;> rw [hts] at hq
      · simp at hq
      · rename_i v vs
        obtain rfl : v :: vs = hs := Option.some.inj hq
        simp only [List.filterMap_cons, ht, ih hts]

theorem compileTerms_none (compile : String → Option (GText → Nat → Option Nat)) :
    ∀ {ts : List RawTerm}, (∃ t ∈ ts, compile t.raw = none) →
      compileTerms compile ts = none := by
  intro ts
  induction ts with
  | nil => intro h; simp at h
  | cons t ts ih =>
    intro h
    simp only [compileTerms]
    rcases h with ⟨t2, ht2, hc⟩
    rcases List.mem_cons.mp ht2 with rfl | hmem
    · rw [hc]
    · rw [ih ⟨t2, hmem, hc⟩]
      cases compile t.raw <;> rfl

theorem mergeScan_head_le {α : Type} [LinearOrder α] :
    ∀ (l : List (α × α)) (cur : α × α),
      (∀ x ∈ l, cur.1 ≤ x.1) →
      List.Pairwise (fun a b => a.1 ≤ b.1) l →
      ∀ y ∈ mergeScan cur l, cur.1 ≤ y.1 := by
  intro l
  induction l with
  | nil =>
    intro cur _ _ y hy
    simp only [mergeScan, List.mem_singleton] at hy
    subst hy
    exact le_refl _
  | cons r rs ih =>
    intro cur hle hpw y hy
    rcases List.pairwise_cons.mp hpw with ⟨hr, hrs⟩
    simp only [mergeScan] at hy
    split at hy
    · rcases List.mem_cons.mp hy with rfl | hy2
      · exact le_refl _
      · exact le_trans (hle r (by simp)) (ih r hr hrs y hy2)
    · exact ih (cur.1, max cur.2 r.2) (fun x hx => hle x (by simp [hx])) hrs y hy

theorem mergeScan_separated {α : Type} [LinearOrder α] :
    ∀ (l : List (α × α)) (cur : α × α),
      (∀ x ∈ l, cur.1 ≤ x.1) →
      List.Pairwise (fun a b => a.1 ≤ b.1) l →
      List.Pairwise (fun a b : α × α => a.2 < b.1) (mergeScan cur l) := by
  intro l
  induction l with
  | nil => intro cur _ _; simp [mergeScan]
  | cons r rs ih =>
    intro cur hle hpw
    rcases List.pairwise_cons.mp hpw with ⟨hr, hrs⟩
    simp only [mergeScan]
    split
    · rename_i hlt
      refine List.pairwise_cons.mpr ⟨?_, ih r hr hrs⟩
      intro y hy
      exact lt_of_lt_of_le hlt (mergeScan_head_le rs r hr hrs y hy)
    · exact ih (cur.1, max cur.2 r.2) (fun x hx => hle x (by simp [hx])) hrs

theorem mergeScan_mem {α : Type} [LinearOrder α] (P : α × α → Prop)
    (hP : ∀ c r, P c → P r → P (c.1, max c.2 r.2)) :
    ∀ (l : List (α × α)) (cur : α × α), P cur → (∀ x ∈ l, P x) →
      ∀ y ∈ mergeScan cur l, P y := by
  intro l
  induction l with
  | nil =>
    intro cur hc _ y hy
    simp only [mergeScan, List.mem_singleton] at hy
    subst hy
    exact hc
  | cons r rs ih =>
    intro cur hc hl y hy
    simp only [mergeScan] at hy
    split at hy
    · rcases List.mem_cons.mp hy with rfl | hy2
      · exact hc
      · exact ih r (hl r (by simp)) (fun x hx => hl x (by simp [hx])) y hy2
    · exact ih (cur.1, max cur.2 r.2) (hP cur r hc (hl r (by simp)))
        (fun x hx => hl x (by simp [hx])) y hy

theorem coversPoint_cons {α : Type} [LinearOrder α] (x : α × α)
    (l : List (α × α)) (p : α) :
    coversPoint (x :: l) p ↔ (x.1 ≤ p ∧ p < x.2) ∨ coversPoint l p := by
  simp [coversPoint]

theorem mergeScan_covers {α : Type} [LinearOrder α] :
    ∀ (l : List (α × α)) (cur : α × α),
      (∀ x ∈ l, cur.1 ≤ x.1) →
      List.Pairwise (fun a b => a.1 ≤ b.1) l →
      ∀ p, coversPoint (mergeScan cur l) p ↔ coversPoint (cur :: l) p := by
  intro l
  induction l with
  | nil => intro cur _ _ p; simp [mergeScan]
  | cons r rs ih =>
    intro cur hle hpw p
    rcases List.pairwise_cons.mp hpw with ⟨hr, hrs⟩
    simp only [mergeScan]
    split
    · rename_i hlt
      rw [coversPoint_cons, ih r hr hrs p, coversPoint_cons cur]
    · rename_i hnlt
      have hr1c : r.1 ≤ cur.2 := le_of_not_lt hnlt
      have hcr : cur.1 ≤ r.1 := hle r (by simp)
      rw [ih (cur.1, max cur.2 r.2) (fun x hx => hle x (by simp [hx])) hrs p,
        coversPoint_cons, coversPoint_cons, coversPoint_cons]
      have hiv : (cur.1 ≤ p ∧ p < max cur.2 r.2) ↔
          ((cur.1 ≤ p ∧ p < cur.2) ∨ (r.1 ≤ p ∧ p < r.2)) := by
        constructor
        · rintro ⟨h1, h2⟩
          rcases lt_max_iff.mp h2 with h3 | h3
          · exact Or.inl ⟨h1, h3⟩
          · rcases lt_or_le p cur.2 with h4 | h4
            · exact Or.inl ⟨h1, h4⟩
            · exact Or.inr ⟨le_trans hr1c h4, h3⟩
        · rintro (⟨h1, h2⟩ | ⟨h1, h2⟩)
          · exact ⟨h1, lt_max_iff.mpr (Or.inl h2)⟩
          · exact ⟨le_trans hcr h1, lt_max_iff.mpr (Or.inr h2)⟩
      rw [hiv, or_assoc]

theorem normalizeRanges_separated {α : Type} [LinearOrder α]
    (l : List (α × α)) :
    List.Pairwise (fun a b : α × α => a.2 < b.1) (normalizeRanges l) := by
  have hs := List.sorted_insertionSort (fun a b : α × α => a.1 ≤ b.1) l
  unfold normalizeRanges
  revert hs
  generalize List.insertionSort (fun a b : α × α => a.1 ≤ b.1) l = s
  intro hs
  cases s with
  | nil => simp [mergeRanges]
  | cons r rs =>
    rcases List.pairwise_cons.mp hs with ⟨hr, hrs⟩
    exact mergeScan_separated rs r hr hrs

theorem normalizeRanges_mem {α : Type} [LinearOrder α] (P : α × α → Prop)
    (hP : ∀ c r, P c → P r → P (c.1, max c.2 r.2)) (l : List (α × α))
    (hl : ∀ x ∈ l, P x) : ∀ y ∈ normalizeRanges l, P y := by
  have hmem : ∀ x ∈ List.insertionSort (fun a b : α × α => a.1 ≤ b.1) l, P x :=
    fun x hx => hl x (((List.perm_insertionSort _ l).mem_iff).mp hx)
  unfold normalizeRanges
  revert hmem
  generalize List.insertionSort (fun a b : α × α => a.1 ≤ b.1) l = s
  intro hmem
  cases s with
  | nil => simp [mergeRanges]
  | cons r rs =>
    exact mergeScan_mem P hP rs r (hmem r (by simp))
      (fun x hx => hmem x (by simp [hx]))

theorem normalizeRanges_covers {α : Type} [LinearOrder α] (l : List (α × α))
    (p : α) : coversPoint (normalizeRanges l) p ↔ coversPoint l p := by
  have hperm := List.perm_insertionSort (fun a b : α × α => a.1 ≤ b.1) l
  have hs := List.sorted_insertionSort (fun a b : α × α => a.1 ≤ b.1) l
  have hcov : coversPoint (List.insertionSort (fun a b : α × α => a.1 ≤ b.1) l) p
      ↔ coversPoint l p := by
    simp only [coversPoint]
    constructor
    · rintro ⟨x, hx, hc⟩; exact ⟨x, hperm.subset hx, hc⟩
    · rintro ⟨x, hx, hc⟩; exact ⟨x, hperm.symm.subset hx, hc⟩
  rw [← hcov]
  unfold normalizeRanges
  revert hs
  generalize List.insertionSort (fun a b : α × α => a.1 ≤ b.1) l = s
  intro hs
  cases s with
  | nil => simp [mergeRanges]
  | cons r rs =>
    rcases List.pairwise_cons.mp hs with ⟨hr, hrs⟩
    exact mergeScan_covers rs r hr hrs p

theorem scanFrom_completed {E : Type} (m : E → Bool) (maxR : Nat) :
    ∀ (es : List E) (d : Nat), (scanFrom m maxR es d).2 = .Completed := by
  intro es
  induction es with
  | nil => intro d; rfl
  | cons e es ih =>
    intro d
    by_cases h1 : d = maxR
    · simp [scanFrom, h1]
    · by_cases h2 : m e
      · simp only [scanFrom, if_neg h1, if_pos h2]
        exact ih (d + 1)
      · simp only [scanFrom, if_neg h1, if_neg h2]
        exact ih d

theorem scanFrom_length {E : Type} (m : E → Bool) (maxR : Nat) :
    ∀ (es : List E) (d : Nat), d ≤ maxR →
      ((scanFrom m maxR es d).1).length = min (maxR - d) (es.countP m) := by
  intro es
  induction es with
  | nil => intro d _; simp [scanFrom]
  | cons e es ih =>
    intro d hd
    by_cases h1 : d = maxR
    · simp [scanFrom, h1]
    · by_cases h2 : m e
      · simp only [scanFrom, if_neg h1, if_pos h2, List.length_cons]
        rw [ih (d + 1) (by omega), List.countP_cons]
        simp only [h2, if_true]
        omega
      · simp only [scanFrom, if_neg h1, if_neg h2]
        rw [ih d hd, List.countP_cons]
        simp [h2]

theorem sessStep_terminal {s s2 : HState} {ev : SEv} (ht : terminalH s)
    (hd : s.inDelivery = false) (h : sessStep s ev = some s2) :
    terminalH s2 ∧ s2.inDelivery = false ∧ ev ≠ SEv.deliverBegin := by
  have hterm : s.st = SessionState.Cancelled ∨ s.st = SessionState.Completed := ht
  cases ev <;> simp only [sessStep] at h
  · rcases hterm with h1 | h1 <;> simp [h1] at h
  · rcases hterm with h1 | h1 <;> simp [h1, hd] at h
  · simp [hd] at h
  · rcases hterm with h1 | h1 <;> simp [h1, hd] at h
  · rw [if_pos hterm] at h
    obtain rfl := Option.some.inj h
    exact ⟨ht, hd, by simp⟩
  · rw [if_pos ⟨hterm, hd⟩] at h
    obtain rfl := Option.some.inj h
    exact ⟨ht, hd, by simp⟩

theorem runEvents_terminal_no_deliver :
    ∀ (post : List SEv) (s : HState), terminalH s → s.inDelivery = false →
      ∀ s2, runEvents s post = some s2 → SEv.deliverBegin ∉ post := by
  intro post
  induction post with
  | nil => intro s _ _ s2 _; simp
  | cons ev evs ih =>
    intro s ht hd s2 hrun
    simp only [runEvents, List.foldlM_cons] at hrun
    cases hstep : sessStep s ev with
    | none => rw [hstep] at hrun; simp at hrun
    | some s3 =>
      rw [hstep] at hrun
      simp only [Option.bind_eq_bind, Option.some_bind] at hrun
      obtain ⟨ht3, hd3, hne⟩ := sessStep_terminal ht hd hstep
      have hnotin := ih s3 ht3 hd3 s2 hrun
      intro hmem
      rcases List.mem_cons.mp hmem with heq | hmem2
      · exact hne heq.symm
      · exact hnotin hmem2

theorem cMatcherRun_cases (env : CMatcherEnv) (args : List String) :
    cMatcherRun env args = none ∨ cMatcherRun env args = some ([[]], 0) ∨
      ∃ gs, cMatcherRun env args = some ([gs], 0) := by
  unfold cMatcherRun
  rcases hp : (cMatcherParse args).pat with _ | p <;>
    rcases ht : (cMatcherParse args).text with _ | t
  · simp [hp, ht]
  · simp [hp, ht]
  · rcases hf : (cMatcherParse args).textFile with _ | f
    · by_cases hc : env.compileOk p <;> simp [hp, ht, hf, hc]
    · rcases hr : env.readFile f with _ | c
      · simp [hp, ht, hf, hr]
      · by_cases hc : env.compileOk p
        · rcases hm : env.matchGroups p c with _ | gs
          · simp [hp, ht, hf, hr, hc, hm]
          · refine Or.inr (Or.inr ⟨gs, ?_⟩)
            simp [hp, ht, hf, hr, hc, hm]
        · simp [hp, ht, hf, hr, hc]
  · by_cases hc : env.compileOk p
    · rcases hm : env.matchGroups p t with _ | gs
      · simp [hp, ht, hc, hm]
      · refine Or.inr (Or.inr ⟨gs, ?_⟩)
        simp [hp, ht, hc, hm]
    · simp [hp, ht, hc]

theorem cMatcherRun_normal (env : CMatcherEnv) (args : List String) :
    ∀ out, cMatcherRun env args = some out →
      out.1.length = 1 ∧ out.2 = 0 := by
  intro out h
  rcases cMatcherRun_cases env args with h0 | h0 | ⟨gs, h0⟩ <;> rw [h0] at h
  · simp at h
  · obtain rfl := Option.some.inj h
    simp
  · obtain rfl := Option.some.inj h
    simp

theorem cMatcherRun_none_iff (env : CMatcherEnv) (args : List String) :
    cMatcherRun env args = none ↔ cMatcherCrashCond env args := by
  unfold cMatcherRun cMatcherCrashCond
  rcases hp : (cMatcherParse args).pat with _ | p <;>
    rcases ht : (cMatcherParse args).text with _ | t
  · simp [hp, ht]
  · simp [hp, ht]
  · rcases hf : (cMatcherParse args).textFile with _ | f
    · by_cases hc : env.compileOk p <;> simp [hp, ht, hf, hc]
    · rcases hr : env.readFile f with _ | c
      · simp [hp, ht, hf, hr]
      · by_cases hc : env.compileOk p
        · rcases hm : env.matchGroups p c with _ | gs <;>
            simp [hp, ht, hf, hr, hc, hm]
        · simp [hp, ht, hf, hr, hc]
  · by_cases hc : env.compileOk p
    · rcases hm : env.matchGroups p t with _ | gs <;> simp [hp, ht, hc, hm]
    · simp [hp, ht, hc]

theorem cMatcherRun_compileFail {env : CMatcherEnv} {args : List String}
    {p : String} (hp : (cMatcherParse args).pat = some p)
    (hc : env.compileOk p = false) :
    cMatcherRun env args = some ([[]], 0) := by
  unfold cMatcherRun
  rcases ht : (cMatcherParse args).text with _ | t
  · rcases hf : (cMatcherParse args).textFile with _ | f
    · simp [hp, ht, hf, hc]
    · rcases hr : env.readFile f with _ | c <;> simp [hp, ht, hf, hr, hc]
  · simp [hp, ht, hc]

theorem scanFrom_allFalse {E : Type} (m : E → Bool) (maxR : Nat)
    (hm : ∀ e, m e = false) :
    ∀ (es : List E) (d : Nat), scanFrom m maxR es d = ([], .Completed) := by
  intro es
  induction es with
  | nil => intro d; rfl
  | cons e es ih =>
    intro d
    by_cases h1 : d = maxR
    · simp [scanFrom, h1]
    · simp only [scanFrom, if_neg h1, hm e, Bool.false_eq_true, if_false]
      exact ih d

/-! ## The claims -/

/-- **C1.**  For every search session and every call to `cancel(handle)`,
no delivery call for that handle begins after `cancel` returns to the
caller: in any valid interleaving of the session's events (a run of the
guarded transition system modelled from spec §4.4), no `deliverBegin`
event occurs after the `cancelRet` event.  Consequently a caller that
frees its receiving context immediately after `cancel` returns is never
the target of a subsequent delivery. -/
theorem claim_C1_cancel_synchronizing (pre post : List SEv) (s2 : HState)
    (hrun : runEvents initialHState (pre ++ SEv.cancelRet :: post) = some s2) :
    SEv.deliverBegin ∉ post := by
  unfold runEvents at hrun
  rw [List.foldlM_append] at hrun
  cases h1 : List.foldlM sessStep initialHState pre with
  | none => rw [h1] at hrun; simp at hrun
  | some s1 =>
    rw [h1] at hrun
    simp only [Option.bind_eq_bind, Option.some_bind, List.foldlM_cons] at hrun
    cases h2 : sessStep s1 SEv.cancelRet with
    | none => rw [h2] at hrun; simp at hrun
    | some s3 =>
      rw [h2] at hrun
      simp only [Option.bind_eq_bind, Option.some_bind] at hrun
      have hguard : terminalH s3 ∧ s3.inDelivery = false := by
        simp only [sessStep] at h2
        split at h2
        · rename_i hcond
          obtain rfl := Option.some.inj h2
          exact ⟨hcond.1, hcond.2⟩
        · simp at h2
      exact runEvents_terminal_no_deliver post s3 hguard.1 hguard.2 s2 hrun

/-- Witness for C1: a concrete valid interleaving — start, one complete
delivery, cancel called and returned, then a redundant cancel call — has
no delivery beginning after the cancel return. -/
theorem claim_C1_witness : SEv.deliverBegin ∉ [SEv.cancelCall] :=
  claim_C1_cancel_synchronizing
    [SEv.start, SEv.deliverBegin, SEv.deliverEnd, SEv.cancelCall]
    [SEv.cancelCall] ⟨SessionState.Cancelled, false⟩ (by decide)

/-- **C2.**  A regex session whose pattern fails to compile delivers zero
results for every entry and ends `Completed` with no error; and the
reference parity matcher, given an uncompilable pattern, prints exactly
one empty result set and exits with status 0 (`c_matcher.c` lines
57–61). -/
theorem claim_C2_regex_compile_failure :
    (∀ (env : CMatcherEnv) (args : List String) (p : String),
        (cMatcherParse args).pat = some p → env.compileOk p = false →
        cMatcherRun env args = some ([[]], 0)) ∧
    (∀ (compile : String → Option (GText → Nat → Option Nat))
        (toLit : String → GText) (q : RawQuery) (entries : List EntryText)
        (maxResults : Nat), q.regexMode = true →
        (∃ t ∈ q.terms, compile t.raw = none) →
        runQuerySession compile toLit q entries maxResults =
          ([], SessionState.Completed)) := by
  constructor
  · intro env args p hp hc
    exact cMatcherRun_compileFail hp hc
  · intro compile toLit q entries maxR hmode hfail
    unfold runQuerySession runSession
    have hcq : compileQuery compile toLit q = none := by
      unfold compileQuery
      rw [hmode, if_pos rfl]
      exact compileTerms_none compile hfail
    rw [hcq]
    exact scanFrom_allFalse _ maxR (fun _ => rfl) entries 0

/-- Witness for C2: an unmatched-parenthesis pattern in an environment
where it does not compile, and a one-term regex session over a nonempty
store whose compile oracle rejects the term. -/
theorem claim_C2_witness :
    cMatcherRun envNoCompile ["(", "x"] = some ([[]], 0) ∧
      runQuerySession (fun _ => none) (fun _ => [g1]) ⟨true, [⟨none, "("⟩]⟩
        [sampleEntry] 5 = ([], SessionState.Completed) := by
  constructor
  · exact claim_C2_regex_compile_failure.1 envNoCompile ["(", "x"] "("
      (by decide) rfl
  · exact claim_C2_regex_compile_failure.2 (fun _ => none) (fun _ => [g1])
      ⟨true, [⟨none, "("⟩]⟩ [sampleEntry] 5 rfl
      ⟨⟨none, "("⟩, by simp, rfl⟩

/-- **C3.**  A session started with `max_results = N` over a fixed store
delivers exactly `min(N, matching_entry_count)` results, and its final
state is `Completed`, after which no further delivery occurs (terminal
states admit no `deliverBegin` in the session event system). -/
theorem claim_C3_max_results {E : Type} (m : E → Bool) (N : Nat)
    (entries : List E) :
    ((runSession m N entries).1).length = min N (entries.countP m) ∧
    (runSession m N entries).2 = SessionState.Completed := by
  constructor
  · have h := scanFrom_length m N entries 0 (Nat.zero_le N)
    simpa [runSession] using h
  · exact scanFrom_completed m N entries 0

/-- **C4.**  Every delivered highlight range is a half-open interval of
UTF-16 code-unit offsets aligned to grapheme-cluster boundaries of the
matched field's text, with `0 ≤ start < end ≤ length` of that field in
UTF-16 units (`start ≥ 0` holds because offsets are naturals).  The
hypotheses are the model's well-formedness side conditions: every cluster
is a nonempty code-unit run, literal terms are nonempty, and a compiled
regex only reports matches spanning at least one cluster inside the
text. -/
theorem claim_C4_highlight_bounds (e : EntryText) (q : List ScopedTerm)
    (hs : List (FieldName × Nat × Nat)) (f : FieldName) (r : Nat × Nat)
    (hwfn : wellFormedText e.nameText) (hwfp : wellFormedText e.pathText)
    (hwfq : ∀ t ∈ q, wellFormedCTerm t.term)
    (hm : matchEntry e q = some hs) (hr : r ∈ deliveredRanges hs f) :
    r.1 < r.2 ∧ r.2 ≤ utf16Len (fieldText e f) ∧
      AlignedIn (fieldText e f) r := by
  have hwf : wellFormedText (fieldText e f) := by
    cases f
    · exact hwfn
    · exact hwfp
  have hfield : ∀ x ∈ fieldRanges hs f, AlignedIn (fieldText e f) x := by
    intro x hx
    unfold fieldRanges at hx
    rcases List.mem_filterMap.mp hx with ⟨h3, hh3, hite⟩
    rcases h3 with ⟨f3, a3, b3⟩
    split at hite
    · rename_i heq
      obtain rfl := Option.some.inj hite
      obtain ⟨t, ht, hev⟩ := matchEntry_mem hm (f3, a3, b3) hh3
      subst heq
      exact evalTerm_aligned (hwfq t ht) hev
    · simp at hite
  have hclosed : ∀ c rr : Nat × Nat, AlignedIn (fieldText e f) c →
      AlignedIn (fieldText e f) rr →
      AlignedIn (fieldText e f) (c.1, max c.2 rr.2) := by
    rintro c rr ⟨a1, b1, hab1, hb1, hc1, hc2⟩ ⟨a2, b2, hab2, hb2, hd1, hd2⟩
    rcases max_choice c.2 rr.2 with hmx | hmx
    · exact ⟨a1, b1, hab1, hb1, hc1, by rw [hmx]; exact hc2⟩
    · refine ⟨a1, b2, ?_, hb2, hc1, by rw [hmx]; exact hd2⟩
      by_contra hle
      push_neg at hle
      have hmono := utf16Off_mono (fieldText e f) b2 a1 hle
      have h1 : c.1 < c.2 := by
        rw [hc1, hc2]
        exact utf16Off_strictMono _ a1 b1 hwf hab1 hb1
      have h2 : c.2 ≤ rr.2 := by
        rw [← hmx]
        exact le_max_left _ _
      omega
  have halig : AlignedIn (fieldText e f) r :=
    normalizeRanges_mem _ hclosed (fieldRanges hs f) hfield r hr
  obtain ⟨a, b, hab, hb, h1, h2⟩ := id halig
  refine ⟨?_, ?_, halig⟩
  · rw [h1, h2]
    exact utf16Off_strictMono _ a b hwf hab hb
  · rw [h2]
    exact utf16Off_le_len _ b

/-- Witness for C4: the literal term `[g2]` on the sample entry's name
yields the delivered range `(1, 3)` — which is strict, within the 4
UTF-16 units of the name, and cluster-aligned. -/
theorem claim_C4_witness :
    ((1, 3) : Nat × Nat).1 < ((1, 3) : Nat × Nat).2 ∧
      ((1, 3) : Nat × Nat).2 ≤ utf16Len (fieldText sampleEntry .name) ∧
      AlignedIn (fieldText sampleEntry .name) (1, 3) :=
  claim_C4_highlight_bounds sampleEntry [⟨none, CTerm.lit [g2]⟩]
    [(.name, 1, 3)] .name (1, 3)
    (by unfold wellFormedText; decide) (by unfold wellFormedText; decide)
    (by
      intro t ht
      rcases List.mem_singleton.mp ht with rfl
      simp [wellFormedCTerm, g2])
    (by decide) (by decide)

/-- **C5.**  A regex term that compiles and matches somewhere in the
candidate field yields exactly one highlight range for that term — the
first (leftmost) match occurrence: the range's start matches and every
earlier position does not.  (The model performs no all-occurrences scan;
there is no repeatable marker in the query model, per spec §9's open
question resolved to first-match.) -/
theorem claim_C5_regex_leftmost_single (m : GText → Nat → Option Nat)
    (cs : GText) (hmatch : ∃ j en, j ≤ cs.length ∧ m cs j = some en) :
    (rxTermRanges m cs).length = 1 ∧
      ∀ r ∈ rxTermRanges m cs, m cs r.1 = some r.2 ∧
        ∀ j, j < r.1 → m cs j = none := by
  have hne : evalTermOnText cs (CTerm.rx m) ≠ none := by
    intro hn
    obtain ⟨j, en, hj, hmj⟩ := hmatch
    have h0 := evalTermOnText_none hn j hj
    simp only [termMatchAt] at h0
    rw [hmj] at h0
    exact Option.noConfusion h0
  cases hev : evalTermOnText cs (CTerm.rx m) with
  | none => exact absurd hev hne
  | some r =>
    rcases r with ⟨a, b⟩
    unfold rxTermRanges
    rw [hev]
    refine ⟨rfl, ?_⟩
    intro r2 hr2
    rcases List.mem_singleton.mp hr2 with rfl
    obtain ⟨h1, h2⟩ := evalTermOnText_sound hev
    exact ⟨h1, fun j hj => h2 j hj⟩

/-- Witness for C5: `sampleRx` on `[g1, g2]` matches only at cluster 1;
evaluation yields the single leftmost range. -/
theorem claim_C5_witness :
    (rxTermRanges sampleRx [g1, g2]).length = 1 ∧
      ∀ r ∈ rxTermRanges sampleRx [g1, g2],
        sampleRx [g1, g2] r.1 = some r.2 ∧
        ∀ j, j < r.1 → sampleRx [g1, g2] j = none :=
  claim_C5_regex_leftmost_single sampleRx [g1, g2] ⟨1, 2, by decide, by decide⟩

/-- **C6.**  The client's range handling (`applyRangesToHtml`,
`qt-client/main.cpp` 26–59): after collection, sort and merge, the
delivered per-field range set is pairwise non-overlapping and
non-touching (`prev.end < next.start`, hence sorted by start and minimal
— no two remaining ranges can be merged), every kept range satisfies
`0 ≤ start < end`, merging loses no highlighted position and adds none,
and a record's `name` and `path` fields are normalized independently —
ranges are never merged across fields. -/
theorem claim_C6_client_normalization (xs : List JItem) :
    List.Pairwise (fun a b : Int × Int => a.2 < b.1) (clientNormalize xs) ∧
    (∀ r ∈ clientNormalize xs, 0 ≤ r.1 ∧ r.1 < r.2) ∧
    (∀ p : Int, coversPoint (clientNormalize xs) p ↔
      coversPoint (collectRanges xs) p) ∧
    (∀ ys : List JItem,
      clientRecordRanges xs ys = (clientNormalize xs, clientNormalize ys)) := by
  refine ⟨?_, ?_, ?_, fun ys => rfl⟩
  · exact normalizeRanges_separated (collectRanges xs)
  · have hP : ∀ c r : Int × Int, (0 ≤ c.1 ∧ c.1 < c.2) →
        (0 ≤ r.1 ∧ r.1 < r.2) →
        0 ≤ (c.1, max c.2 r.2).1 ∧ (c.1, max c.2 r.2).1 < (c.1, max c.2 r.2).2 := by
      rintro c r ⟨h1, h2⟩ ⟨h3, h4⟩
      exact ⟨h1, lt_max_iff.mpr (Or.inl h2)⟩
    have hl : ∀ x ∈ collectRanges xs, 0 ≤ x.1 ∧ x.1 < x.2 := by
      intro x hx
      unfold collectRanges at hx
      rcases List.mem_filterMap.mp hx with ⟨it, hit, hsome⟩
      cases it with
      | notArr => simp at hsome
      | arr vals =>
        rcases vals with _ | ⟨s, _ | ⟨en, rest⟩⟩
        · simp at hsome
        · simp at hsome
        · simp only at hsome
          split at hsome
          · simp at hsome
          · rename_i hcond
            push_neg at hcond
            obtain rfl := Option.some.inj hsome
            exact ⟨hcond.1, hcond.2⟩
    exact fun r hr => normalizeRanges_mem _ hP (collectRanges xs) hl r hr
  · exact fun p => normalizeRanges_covers (collectRanges xs) p

/-- Witness for C6: the overlapping and touching inputs
`[0,2], [1,3], [3,4]` merge into `(0,4)`, disjoint from `(5,6)`; the
merged head range is valid, and the output is separated. -/
theorem claim_C6_witness :
    (0 ≤ ((0, 4) : Int × Int).1 ∧ ((0, 4) : Int × Int).1 < ((0, 4) : Int × Int).2) ∧
      List.Pairwise (fun a b : Int × Int => a.2 < b.1)
        (clientNormalize
          [JItem.arr [0, 2], JItem.arr [1, 3], JItem.arr [3, 4],
            JItem.arr [5, 6]]) :=
  ⟨(claim_C6_client_normalization
      [JItem.arr [0, 2], JItem.arr [1, 3], JItem.arr [3, 4],
        JItem.arr [5, 6]]).2.1 (0, 4) (by decide),
    (claim_C6_client_normalization
      [JItem.arr [0, 2], JItem.arr [1, 3], JItem.arr [3, 4],
        JItem.arr [5, 6]]).1⟩

/-- **C7.**  `build_index` returns the null sentinel exactly when every
supplied path is unreadable (`BuildError::NoAccessiblePaths`, producing
no partial index), and otherwise returns an index holding precisely the
entries crawled from the accessible paths. -/
theorem claim_C7_build_total_failure_only {E : Type}
    (readable : String → Bool) (entriesOf : String → List E)
    (paths : List String) :
    (buildIndexModel readable entriesOf paths = none ↔
      ∀ p ∈ paths, readable p = false) ∧
    (∀ idx, buildIndexModel readable entriesOf paths = some idx →
      idx = ((paths.filter readable).map entriesOf).flatten) := by
  constructor
  · unfold buildIndexModel
    by_cases h : (paths.filter readable).isEmpty
    · simp only [h, if_true]
      have hnil := List.isEmpty_iff.mp h
      constructor
      · intro _ p hp
        by_contra hread
        have : p ∈ paths.filter readable :=
          List.mem_filter.mpr ⟨hp, by simpa using hread⟩
        rw [hnil] at this
        exact absurd this (List.not_mem_nil p)
      · intro _; trivial
    · simp only [h, if_false]
      constructor
      · intro hcontra
        exact absurd hcontra (by simp)
      · intro hall
        have : paths.filter readable = [] :=
          List.filter_eq_nil_iff.mpr (fun a ha => by simp [hall a ha])
        rw [this] at h
        exact absurd rfl h
  · intro idx h
    simp only [buildIndexModel] at h
    split at h
    · exact absurd h (by simp)
    · exact (Option.some.inj h).symm

/-- Witness for C7: over roots `["a", "b"]` with only `"a"` readable, the
build succeeds and indexes exactly the crawl of `"a"`. -/
theorem claim_C7_witness :
    ([1, 2] : List Nat) =
      ((["a", "b"].filter readableSample).map entriesSample).flatten :=
  (claim_C7_build_total_failure_only readableSample entriesSample
    ["a", "b"]).2 [1, 2] (by decide)

/-- **C8.**  For a structured query with more than one term, an entry
matches iff every term individually matches, and the reported per-field
highlight set is exactly the union of the individual terms' ranges for
that field. -/
theorem claim_C8_conjunction_union (e : EntryText) (q : List ScopedTerm)
    (hlen : 1 < q.length) :
    ((matchEntry e q).isSome ↔ ∀ t ∈ q, (evalTerm e t).isSome) ∧
    (∀ hs, matchEntry e q = some hs →
      ∀ f, fieldRanges hs f = termFieldRanges e q f) := by
  refine ⟨matchEntry_isSome e q, ?_⟩
  intro hs hm f
  unfold fieldRanges termFieldRanges
  exact matchEntry_filterMap e _ hm

/-- Witness for C8: a two-term query (unscoped literal `[g1]`,
path-scoped literal `[g2]`) on the sample entry; the path-field ranges of
the reported highlight set equal the union of the terms' path ranges. -/
theorem claim_C8_witness :
    fieldRanges [(FieldName.name, 0, 1), (FieldName.path, 0, 2)]
        FieldName.path =
      termFieldRanges sampleEntry
        [⟨none, CTerm.lit [g1]⟩, ⟨some FieldName.path, CTerm.lit [g2]⟩]
        FieldName.path :=
  (claim_C8_conjunction_union sampleEntry
    [⟨none, CTerm.lit [g1]⟩, ⟨some FieldName.path, CTerm.lit [g2]⟩]
    (by decide)).2 [(FieldName.name, 0, 1), (FieldName.path, 0, 2)]
    (by decide) FieldName.path

/-- **C9 (counterexample).**  The claim "for every command-line argument
vector the parity matcher terminates normally, prints exactly one JSON
array and exits 0" is false: with the single argument `"a"` (a pattern
that compiles, no text, no text file), `main` reaches
`pcre2_match(re, NULL, strlen(NULL), …)` — `strlen(NULL)` is undefined
behaviour, modelled as abnormal termination. -/
theorem claim_C9_counterexample : cMatcherRun envAllCompile ["a"] = none := by
  decide

/-- **C9 (amended).**  For every argument vector and oracle environment,
whenever the run terminates normally it prints exactly one JSON array and
exits 0 — and the run fails to terminate normally precisely when a
compilable pattern is supplied while no text and no text-file argument
resolves a text (the `strlen(NULL)` path). -/
theorem claim_C9_amended (env : CMatcherEnv) (args : List String) :
    (∀ out, cMatcherRun env args = some out →
      out.1.length = 1 ∧ out.2 = 0) ∧
    (cMatcherRun env args = none ↔ cMatcherCrashCond env args) :=
  ⟨cMatcherRun_normal env args, cMatcherRun_none_iff env args⟩

/-- Witness for C9: the run on the empty argument vector (the usage path)
prints one empty JSON array and exits 0. -/
theorem claim_C9_witness :
    (([[]], 0) : List (List (Nat × Nat)) × Nat).1.length = 1 ∧
      (([[]], 0) : List (List (Nat × Nat)) × Nat).2 = 0 :=
  (claim_C9_amended envAllCompile []).1 ([[]], 0) (by decide)

/-- **C10.**  Once the client's shutting-down flag is true, `result_cb`
(`qt-client/main.cpp` 143–173) returns immediately: it performs no
effect — no event posted, no cancel, no free — and leaves the context
untouched (in particular it never reads it: the result does not depend on
`ctx`).  The atomic acquire-load itself is a memory-ordering fact outside
this sequential embedding; the behavioural content — the flag is checked
before any other action — is what is proved. -/
theorem claim_C10_shutdown_flag (ctx : Option CbContext)
    (name path highlights : String) :
    result_cb true ctx name path highlights = ([], ctx) := rfl
